import Mathlib

/-
Verification of the zkToolkit protocol-composition layer (commitments,
Merkle trees, range proofs, nullifier registry).

Modelling conventions, used throughout:
* The external field-hash oracle (circomlibjs Poseidon) is a parameter
  `h : List Int -> Nat`: it receives the BigInt argument lists the code
  passes to `poseidon([...])` and returns the field element whose canonical
  hex string the code obtains via `toHex(poseidon.F.fromMontgomery _)`.
  Concrete instantiations in witnesses use `listCode`, an injective
  executable encoder.
* Canonical hex serialization `toHex` (lowercase, zero-padded to the
  32-byte element width) is modelled by `natToHex`; for values at or above
  2^256 it keeps all digits instead of being undefined, which is never hit
  by the reference oracle.
* JS `BigInt(string)` is modelled by `jsBigInt?` returning `none` where JS
  throws a SyntaxError.  Surrounding-whitespace trimming of the JS grammar
  is not modelled (no claim exercises it).
* JS `string.toLowerCase()` is modelled by `jsToLower`,
  `TextEncoder.encode` by `utf8Bytes`.
* Randomness (crypto.randomBytes-derived salts) enters as an explicit
  parameter `rand : Nat`, the integer value of the random salt hex string.
-/

set_option maxRecDepth 100000

namespace ZkToolkit

/-- Hex digit for a nibble, lowercase, as produced by `b.toString(16)`. -/
def hexDigitChar (n : Nat) : Char :=
  Char.ofNat (if n < 10 then 48 + n else 87 + n)

/-- Value of a hex digit character (JS BigInt hex grammar: 0-9, a-f, A-F). -/
def hexVal? (c : Char) : Option Nat :=
  if 48 ≤ c.toNat ∧ c.toNat ≤ 57 then some (c.toNat - 48)
  else if 97 ≤ c.toNat ∧ c.toNat ≤ 102 then some (c.toNat - 87)
  else if 65 ≤ c.toNat ∧ c.toNat ≤ 70 then some (c.toNat - 55)
  else none

/-- Value of a decimal digit character. -/
def decVal? (c : Char) : Option Nat :=
  if 48 ≤ c.toNat ∧ c.toNat ≤ 57 then some (c.toNat - 48) else none

/-- Value of a binary digit character. -/
def binVal? (c : Char) : Option Nat :=
  if 48 ≤ c.toNat ∧ c.toNat ≤ 49 then some (c.toNat - 48) else none

/-- Value of an octal digit character. -/
def octVal? (c : Char) : Option Nat :=
  if 48 ≤ c.toNat ∧ c.toNat ≤ 55 then some (c.toNat - 48) else none

/-- Big-endian hex digits of `n`, fuel-based so that it reduces in the
kernel; called with `fuel = n`, which always suffices. -/
def hexDigitsAux : Nat → Nat → List Char
  | 0, n => [hexDigitChar (n % 16)]
  | f + 1, n =>
    if n < 16 then [hexDigitChar n]
    else hexDigitsAux f (n / 16) ++ [hexDigitChar (n % 16)]

/-- The 64-character (or longer, for out-of-oracle-range values)
zero-padded lowercase hex digit list of `n`. -/
def natToHexChars (n : Nat) : List Char :=
  List.replicate (64 - (hexDigitsAux n n).length) '0' ++ hexDigitsAux n n

/-- Models `toHex(poseidon.F.fromMontgomery hash)`: the canonical
0x-prefixed, zero-padded, lowercase hex string of a field element. -/
def natToHex (n : Nat) : String :=
  String.mk ('0' :: 'x' :: natToHexChars n)

/-- Digit-list accumulator in base `b`, failing on the first character
that `dv` rejects: the common core of the JS BigInt(string) grammar. -/
def parseRadix (dv : Char → Option Nat) (b : Nat) : List Char → Nat → Option Nat
  | [], acc => some acc
  | c :: cs, acc =>
    match dv c with
    | none => none
    | some v => parseRadix dv b cs (acc * b + v)

/-- Models JS `BigInt(string)`: `none` where JS throws a SyntaxError.
Covers the empty string (0), 0x/0X/0b/0B/0o/0O prefixes and optionally
signed decimal strings. -/
def jsBigInt? (s : String) : Option Int :=
  match s.data with
  | [] => some 0
  | '0' :: 'x' :: rest =>
    match rest with
    | [] => none
    | _ => (parseRadix hexVal? 16 rest 0).map Int.ofNat
  | '0' :: 'X' :: rest =>
    match rest with
    | [] => none
    | _ => (parseRadix hexVal? 16 rest 0).map Int.ofNat
  | '0' :: 'b' :: rest =>
    match rest with
    | [] => none
    | _ => (parseRadix binVal? 2 rest 0).map Int.ofNat
  | '0' :: 'B' :: rest =>
    match rest with
    | [] => none
    | _ => (parseRadix binVal? 2 rest 0).map Int.ofNat
  | '0' :: 'o' :: rest =>
    match rest with
    | [] => none
    | _ => (parseRadix octVal? 8 rest 0).map Int.ofNat
  | '0' :: 'O' :: rest =>
    match rest with
    | [] => none
    | _ => (parseRadix octVal? 8 rest 0).map Int.ofNat
  | '-' :: rest =>
    match rest with
    | [] => none
    | _ => (parseRadix decVal? 10 rest 0).map (fun n => -(n : Int))
  | '+' :: rest =>
    match rest with
    | [] => none
    | _ => (parseRadix decVal? 10 rest 0).map Int.ofNat
  | l => (parseRadix decVal? 10 l 0).map Int.ofNat

/-- Models JS `string.toLowerCase()` (ASCII suffices for all hex use). -/
def jsToLower (s : String) : String :=
  String.mk (s.data.map Char.toLower)

lemma hexVal_hexDigitChar {n : Nat} (hn : n < 16) :
    hexVal? (hexDigitChar n) = some n := by
  interval_cases n <;> decide

lemma toLower_hexDigitChar {n : Nat} (hn : n < 16) :
    (hexDigitChar n).toLower = hexDigitChar n := by
  interval_cases n <;> decide

lemma parseRadix_append (dv : Char → Option Nat) (b : Nat) (l1 l2 : List Char) :
    ∀ acc, parseRadix dv b (l1 ++ l2) acc =
      (parseRadix dv b l1 acc).bind (parseRadix dv b l2) := by
  induction l1 with
  | nil => intro acc; rfl
  | cons c cs ih =>
    intro acc
    simp only [List.cons_append, parseRadix]
    cases dv c with
    | none => rfl
    | some v => exact ih _

lemma hexDigitsAux_ne_nil (f n : Nat) : hexDigitsAux f n ≠ [] := by
  cases f with
  | zero => simp [hexDigitsAux]
  | succ f =>
    simp only [hexDigitsAux]
    split <;> simp

lemma hexDigitsAux_mem {f n : Nat} {c : Char} (hc : c ∈ hexDigitsAux f n) :
    ∃ m, m < 16 ∧ c = hexDigitChar m := by
  induction f generalizing n with
  | zero =>
    simp only [hexDigitsAux, List.mem_singleton] at hc
    exact ⟨n % 16, Nat.mod_lt _ (by norm_num), hc⟩
  | succ f ih =>
    simp only [hexDigitsAux] at hc
    split at hc
    · simp only [List.mem_singleton] at hc
      exact ⟨n, by omega, hc⟩
    · rcases List.mem_append.mp hc with hmem | hmem
      · exact ih hmem
      · simp only [List.mem_singleton] at hmem
        exact ⟨n % 16, Nat.mod_lt _ (by norm_num), hmem⟩

lemma parseRadix_hexDigitsAux {f n : Nat} (hfn : n ≤ f) :
    ∀ acc, parseRadix hexVal? 16 (hexDigitsAux f n) acc =
      some (acc * 16 ^ (hexDigitsAux f n).length + n) := by
  induction f generalizing n with
  | zero =>
    intro acc
    have hn0 : n = 0 := Nat.le_zero.mp hfn
    subst hn0
    simp [hexDigitsAux, parseRadix, hexVal_hexDigitChar (by norm_num : (0 : Nat) < 16)]
  | succ f ih =>
    intro acc
    by_cases hlt : n < 16
    · simp [hexDigitsAux, hlt, parseRadix, hexVal_hexDigitChar hlt]
    · have h16n : 16 * (n / 16) ≤ n := Nat.mul_div_le n 16
      have hrec : n / 16 ≤ f := by omega
      simp only [hexDigitsAux, if_neg hlt]
      rw [parseRadix_append, ih hrec acc]
      simp only [Option.some_bind, parseRadix,
        hexVal_hexDigitChar (Nat.mod_lt n (by norm_num : (0:Nat) < 16)), List.length_append,
        List.length_singleton, pow_succ]
      congr 1
      have hx : n / 16 * 16 + n % 16 = n := by omega
      calc (acc * 16 ^ (hexDigitsAux f (n / 16)).length + n / 16) * 16 + n % 16
          = acc * (16 ^ (hexDigitsAux f (n / 16)).length * 16) +
              (n / 16 * 16 + n % 16) := by ring
        _ = acc * (16 ^ (hexDigitsAux f (n / 16)).length * 16) + n := by rw [hx]

lemma parseRadix_replicate_zero (k : Nat) (l : List Char) :
    parseRadix hexVal? 16 (List.replicate k '0' ++ l) 0 =
      parseRadix hexVal? 16 l 0 := by
  induction k with
  | zero => rfl
  | succ k ih =>
    simpa [List.replicate_succ, parseRadix, hexVal?] using ih

lemma parseRadix_natToHexChars (n : Nat) :
    parseRadix hexVal? 16 (natToHexChars n) 0 = some n := by
  unfold natToHexChars
  rw [parseRadix_replicate_zero, parseRadix_hexDigitsAux (Nat.le_refl n)]
  simp

lemma natToHexChars_ne_nil (n : Nat) : natToHexChars n ≠ [] := by
  unfold natToHexChars
  intro hcontra
  rcases List.append_eq_nil.mp hcontra with ⟨-, h2⟩
  exact hexDigitsAux_ne_nil n n h2

/-- Parsing a canonical hex string recovers the value: the JS round trip
`BigInt(toHex(x))` is the identity. -/
lemma jsBigInt_natToHex (n : Nat) : jsBigInt? (natToHex n) = some (n : Int) := by
  have hdata : (natToHex n).data = '0' :: 'x' :: natToHexChars n := rfl
  unfold jsBigInt?
  rw [hdata]
  rcases hc : natToHexChars n with _ | ⟨c, cs⟩
  · exact absurd hc (natToHexChars_ne_nil n)
  · have := parseRadix_natToHexChars n
    rw [hc] at this
    simp [this]

lemma natToHex_injective : Function.Injective natToHex := by
  intro a b hab
  have := jsBigInt_natToHex a
  rw [hab, jsBigInt_natToHex b] at this
  exact_mod_cast (Option.some.inj this).symm

lemma map_self_of_fix {f : Char → Char} :
    ∀ {l : List Char}, (∀ c ∈ l, f c = c) → l.map f = l := by
  intro l
  induction l with
  | nil => intro; rfl
  | cons c cs ih =>
    intro hfix
    simp only [List.map_cons]
    rw [hfix c (by simp), ih (fun d hd => hfix d (by simp [hd]))]

/-- Lowercasing a canonical hex string is the identity. -/
lemma jsToLower_natToHex (n : Nat) : jsToLower (natToHex n) = natToHex n := by
  unfold jsToLower natToHex
  congr 1
  simp only [List.map_cons]
  refine congrArg₂ _ (by decide) (congrArg₂ _ (by decide) ?_)
  apply map_self_of_fix
  intro c hc
  unfold natToHexChars at hc
  rcases List.mem_append.mp hc with hmem | hmem
  · rw [List.eq_of_mem_replicate hmem]; decide
  · rcases hexDigitsAux_mem hmem with ⟨m, hm, rfl⟩
    exact toLower_hexDigitChar hm

/-- UTF-8 encoding of one code point (models TextEncoder byte output;
Char excludes surrogates, matching well-formed JS strings). -/
def utf8EncodeCharNat (n : Nat) : List Nat :=
  if n < 128 then [n]
  else if n < 2048 then [192 + n / 64, 128 + n % 64]
  else if n < 65536 then [224 + n / 4096, 128 + n / 64 % 64, 128 + n % 64]
  else [240 + n / 262144, 128 + n / 4096 % 64, 128 + n / 64 % 64, 128 + n % 64]

/-- Models `new TextEncoder().encode(s)`. -/
def utf8Bytes (s : String) : List Nat :=
  s.data.flatMap (fun c => utf8EncodeCharNat c.toNat)

/-- The common plain-string field encoding: big-endian base-256
accumulation over the first 31 UTF-8 bytes (`for i < len && i < 31`). -/
def byteAccum (s : String) : Nat :=
  ((utf8Bytes s).take 31).foldl (fun a b => a * 256 + b) 0

/-- Models `input.startsWith("0x")` (the lowercase-only check the code uses). -/
def startsWith0x (s : String) : Bool :=
  match s.data with
  | '0' :: 'x' :: _ => true
  | _ => false

namespace Merkle

/-- Models stringToFieldElement of the Merkle module (part_002): 0x-strings
go through BigInt (which can throw, hence Option), other strings through
byte accumulation. -/
def stringToFieldElement? (s : String) : Option Int :=
  if startsWith0x s then jsBigInt? s else some (byteAccum s : Int)

end Merkle

namespace HashMod

/-- Models stringToFieldElement of the hash module (part_004): always byte
accumulation, with no 0x special case. -/
def stringToFieldElement (s : String) : Int := (byteAccum s : Int)

end HashMod

/-- A value passed to the commitment module: JS number (integer-valued;
non-integer numbers make BigInt throw and are outside the model), bigint,
or string. -/
inductive Value where
  | num (n : Int)
  | big (n : Int)
  | str (s : String)
deriving DecidableEq, Repr

namespace Commit

/-- Models valueToFieldElement of the commitment module (part_003).
`jsNum s` models `Math.floor(Number(s))` when `Number(s)` is finite and
`none` when it is NaN or infinite; the floating-point parse itself is
external, so it enters as a parameter instantiated consistently with JS
at every concrete input used. -/
def valueToFieldElement? (jsNum : String → Option Int) : Value → Option Int
  | .big z => some z
  | .num n => some n
  | .str s =>
    if startsWith0x s then jsBigInt? s
    else
      match jsNum s with
      | some k => some k
      | none => some (byteAccum s : Int)

end Commit

/-- Injective encoding of an integer into a natural number, used to build
concrete collision-free hash oracles for witnesses. -/
def intCode (z : Int) : Nat :=
  if z < 0 then 2 * z.natAbs - 1 else 2 * z.natAbs

/-- A concrete, executable, injective stand-in for the field-hash oracle:
collision-free, so it satisfies the collision-resistance interface
assumption exactly. -/
def listCode : List Int → Nat
  | [] => 0
  | a :: t => Nat.pair (intCode a) (listCode t) + 1

lemma intCode_injective : Function.Injective intCode := by
  intro a b hab
  simp only [intCode] at hab
  split at hab <;> split at hab <;> omega

lemma listCode_injective : Function.Injective listCode := by
  intro l1
  induction l1 with
  | nil =>
    intro l2 h
    cases l2 with
    | nil => rfl
    | cons b u => simp [listCode] at h
  | cons a t ih =>
    intro l2 h
    cases l2 with
    | nil => simp [listCode] at h
    | cons b u =>
      simp only [listCode, Nat.add_right_cancel_iff] at h
      rcases Nat.pair_eq_pair.mp h with ⟨h1, h2⟩
      rw [intCode_injective h1, ih h2]

instance {ε α : Type} [DecidableEq ε] [DecidableEq α] : DecidableEq (Except ε α) := fun a b =>
  match a, b with
  | .error e, .error f =>
    if h : e = f then isTrue (h ▸ rfl) else isFalse (fun hc => h (Except.error.inj hc))
  | .error _, .ok _ => isFalse (fun hc => Except.noConfusion hc)
  | .ok _, .error _ => isFalse (fun hc => Except.noConfusion hc)
  | .ok x, .ok y =>
    if h : x = y then isTrue (h ▸ rfl) else isFalse (fun hc => h (Except.ok.inj hc))

/-- Floor of log2 via explicit fuel (`fuel = n` always suffices), so that
it reduces in the kernel. -/
def floorLog2 : Nat → Nat → Nat
  | 0, _ => 0
  | f + 1, n => if 2 ≤ n then floorLog2 f (n / 2) + 1 else 0

/-- Ceiling of log2: models `Math.ceil(Math.log2 n)` for positive integer
arguments (exact in double precision throughout the ranges exercised,
since log2 of an exactly representable integer is never misrounded across
an integer boundary below 2^47). -/
def ceilLog2 (n : Nat) : Nat :=
  if n ≤ 1 then 0 else floorLog2 (n - 1) (n - 1) + 1

namespace Merkle

/-- Models the MerkleTree result object.  Inner tree levels hold canonical
lowercase hex strings produced by `toHex`; these are in bijection with
their integer values via `natToHex`, so levels are stored as the values
and serialized at the proof/verify string boundary. -/
structure MerkleTree where
  root : String
  leaves : List String
  levels : List (List Nat)
  depth : Nat
deriving DecidableEq

/-- Models the MerkleProof result object (pathElements as the hex strings
the code stores, pathIndices as JS numbers). -/
structure MerkleProof where
  leaf : String
  index : Nat
  pathElements : List String
  pathIndices : List Int
  root : String
deriving DecidableEq

/-- The part of a proof object that `merkle.verify` reads. -/
structure PathProof where
  pathElements : List String
  pathIndices : List Int
deriving DecidableEq

structure MerkleVerifyResult where
  valid : Bool
  computedRoot : String
  expectedRoot : String
  leaf : String
deriving DecidableEq

/-- One bottom-up combining pass: `next[j] = hash(cur[2j], cur[2j+1])`.
Called only on even-length levels (guaranteed by power-of-two padding). -/
def pairUp (h : List Int → Nat) : List Nat → List Nat
  | a :: b :: t => h [(a : Int), (b : Int)] :: pairUp h t
  | _ => []

/-- All levels from a base level up to the singleton root level, with
explicit fuel (the base length suffices since levels halve). -/
def buildLevels (h : List Int → Nat) : Nat → List Nat → List (List Nat)
  | 0, cur => [cur]
  | f + 1, cur =>
    if cur.length ≤ 1 then [cur] else cur :: buildLevels h f (pairUp h cur)

/-- Models `currentLevel[0]` once the loop has reduced to one element. -/
def rootOf : List (List Nat) → Nat
  | [] => 0
  | [l] => l.headD 0
  | _ :: t => rootOf t

/-- The power-of-two (and at least 2) padded length produced by the
`while (len & (len - 1)) push("0")` loop plus the single-leaf doubling. -/
def padLen (n : Nat) : Nat := 2 ^ (max 1 (ceilLog2 n))

/-- The padded leaf list: original leaves followed by sentinel zeros. -/
def padLeaves (l : List String) : List String :=
  l ++ List.replicate (padLen l.length - l.length) "0"

/-- Encoding every (padded) leaf, propagating a BigInt SyntaxError
(thrown on a malformed 0x leaf) as failure of the whole construction. -/
def parseLeaves : List String → Option (List Int)
  | [] => some []
  | s :: t =>
    match stringToFieldElement? s, parseLeaves t with
    | some v, some vs => some (v :: vs)
    | _, _ => none

/-- Models merkle.create. -/
def create (h : List Int → Nat) (leaves : List String) : Except String MerkleTree :=
  if leaves = [] then .error "Cannot create Merkle tree with no leaves"
  else
    match parseLeaves (padLeaves leaves) with
    | none => .error "SyntaxError: cannot convert leaf to a BigInt"
    | some vs =>
      .ok ⟨natToHex (rootOf (buildLevels h (padLeaves leaves).length
              (vs.map (fun v => h [v])))),
           padLeaves leaves,
           buildLevels h (padLeaves leaves).length (vs.map (fun v => h [v])),
           floorLog2 (padLeaves leaves).length (padLeaves leaves).length⟩

/-- Sibling hex values pushed by the proof loop, one per level below the
root: sibling index is `i-1` for a right node and `i+1` for a left node. -/
def pathElems : List (List Nat) → Nat → List Nat
  | [], _ => []
  | [_], _ => []
  | cur :: next :: rest, i =>
    cur.getD (if i % 2 = 1 then i - 1 else i + 1) 0 ::
      pathElems (next :: rest) (i / 2)

/-- Path indices pushed by the proof loop: 1 when the current node is the
right child. -/
def pathIdxs : List (List Nat) → Nat → List Int
  | [], _ => []
  | [_], _ => []
  | _ :: next :: rest, i =>
    (if i % 2 = 1 then (1 : Int) else 0) :: pathIdxs (next :: rest) (i / 2)

/-- Models merkle.proof: hard failure on an out-of-bounds index, otherwise
the sibling path assembled from the retained levels. -/
def proof (tree : MerkleTree) (index : Nat) : Except String MerkleProof :=
  if tree.leaves.length ≤ index then
    .error "Index out of bounds"
  else
    .ok ⟨tree.leaves.getD index "", index,
         (pathElems tree.levels index).map natToHex,
         pathIdxs tree.levels index, tree.root⟩

/-- The verify recomputation loop over attacker-supplied strings:
each path element goes through BigInt (`none` models the thrown
SyntaxError); `pathIndices[i] === 0` selects the left slot, and a missing
(undefined) index entry compares unequal to 0, selecting the right slot. -/
def verifyLoop (h : List Int → Nat) : Nat → List String → List Int → Option Nat
  | cur, [], _ => some cur
  | cur, e :: es, idxs =>
    match jsBigInt? e with
    | none => none
    | some sib =>
      verifyLoop h
        (if idxs.head? = some 0 then h [(cur : Int), sib] else h [sib, (cur : Int)])
        es idxs.tail

/-- Models merkle.verify. -/
def verify (h : List Int → Nat) (root leaf : String) (pf : PathProof) :
    Except String MerkleVerifyResult :=
  match stringToFieldElement? leaf with
  | none => .error "SyntaxError: cannot convert leaf to a BigInt"
  | some lf =>
    match verifyLoop h (h [lf]) pf.pathElements pf.pathIndices with
    | none => .error "SyntaxError: cannot convert path element to a BigInt"
    | some final =>
      .ok ⟨jsToLower (natToHex final) == jsToLower root, natToHex final, root, leaf⟩

/-- Value-level counterpart of the verify loop, used to relate it to the
levels built by create. -/
def walk (h : List Int → Nat) : Nat → List Nat → List Int → Nat
  | cur, [], _ => cur
  | cur, s :: ss, idxs =>
    walk h
      (if idxs.head? = some 0 then h [(cur : Int), (s : Int)]
       else h [(s : Int), (cur : Int)])
      ss idxs.tail

theorem pairUp_length (h : List Int → Nat) :
    ∀ L : List Nat, (pairUp h L).length = L.length / 2
  | [] => by simp [pairUp]
  | [_] => by simp [pairUp]
  | _ :: _ :: t => by
    simp only [pairUp, List.length_cons, pairUp_length h t]
    omega

theorem pairUp_getD (h : List Int → Nat) :
    ∀ (L : List Nat) (j : Nat), 2 * j + 1 < L.length →
      (pairUp h L).getD j 0 =
        h [((L.getD (2 * j) 0 : Nat) : Int), ((L.getD (2 * j + 1) 0 : Nat) : Int)]
  | [], _, hj => by simp at hj
  | [_], _, hj => by simp at hj
  | _ :: _ :: t, 0, _ => rfl
  | a :: b :: t, j + 1, hj => by
    have hlt : 2 * j + 1 < t.length := by
      simp only [List.length_cons] at hj; omega
    have e2 : 2 * (j + 1) = 2 * j + 1 + 1 := by ring
    have e3 : 2 * (j + 1) + 1 = 2 * j + 1 + 1 + 1 := by ring
    simp only [pairUp, e2, e3, List.getD_cons_succ]
    exact pairUp_getD h t j hlt

theorem buildLevels_cons (h : List Int → Nat) :
    ∀ (f : Nat) (L : List Nat), ∃ t, buildLevels h f L = L :: t
  | 0, L => ⟨[], rfl⟩
  | f + 1, L => by
    simp only [buildLevels]
    split
    · exact ⟨[], rfl⟩
    · exact ⟨_, rfl⟩

theorem walk_buildLevels (h : List Int → Nat) :
    ∀ (d f : Nat) (L : List Nat) (i : Nat), d ≤ f → L.length = 2 ^ d → i < 2 ^ d →
      walk h (L.getD i 0) (pathElems (buildLevels h f L) i)
          (pathIdxs (buildLevels h f L) i)
        = rootOf (buildLevels h f L) := by
  intro d
  induction d with
  | zero =>
    intro f L i hdf hL hi
    have hi0 : i = 0 := by simpa using hi
    subst hi0
    have hL1 : L.length = 1 := by simpa using hL
    rcases List.length_eq_one.mp hL1 with ⟨a, rfl⟩
    cases f with
    | zero => rfl
    | succ f => simp [buildLevels, pathElems, pathIdxs, walk, rootOf]
  | succ d ih =>
    intro f L i hdf hL hi
    cases f with
    | zero => omega
    | succ f =>
      have hp : (2 : Nat) ^ (d + 1) = 2 * 2 ^ d := by rw [pow_succ]; ring
      have hlen2 : ¬ L.length ≤ 1 := by
        rw [hL]
        have h1 : (1 : Nat) ≤ 2 ^ d := Nat.one_le_two_pow
        omega
      have hstep : buildLevels h (f + 1) L = L :: buildLevels h f (pairUp h L) := by
        simp [buildLevels, hlen2]
      obtain ⟨t, ht⟩ := buildLevels_cons h f (pairUp h L)
      have hMlen : (pairUp h L).length = 2 ^ d := by
        rw [pairUp_length, hL]; omega
      have hhalf : i / 2 < 2 ^ d := by omega
      have hIH := ih f (pairUp h L) (i / 2) (by omega) hMlen hhalf
      rw [ht] at hIH
      rw [hstep, ht]
      rcases Nat.mod_two_eq_zero_or_one i with hpar | hpar
      · have hie : 2 * (i / 2) = i := by omega
        have hib : 2 * (i / 2) + 1 < L.length := by rw [hL]; omega
        have hsib := pairUp_getD h L (i / 2) hib
        rw [show 2 * (i / 2) + 1 = i + 1 from by omega, hie] at hsib
        have hif : (if i % 2 = 1 then i - 1 else i + 1) = i + 1 := by simp [hpar]
        have hif2 : (if i % 2 = 1 then (1 : Int) else 0) = 0 := by simp [hpar]
        simp only [pathElems, pathIdxs, hif, hif2, walk, List.head?_cons,
          List.tail_cons, rootOf, Option.some.injEq, if_true, if_false,
          eq_self_iff_true]
        rw [← hsib]
        exact hIH
      · have hie2 : 2 * (i / 2) + 1 = i := by omega
        have hie : 2 * (i / 2) = i - 1 := by omega
        have hib : 2 * (i / 2) + 1 < L.length := by rw [hL]; omega
        have hsib := pairUp_getD h L (i / 2) hib
        rw [hie2, hie] at hsib
        have hif : (if i % 2 = 1 then i - 1 else i + 1) = i - 1 := by simp [hpar]
        have hif2 : (if i % 2 = 1 then (1 : Int) else 0) = 1 := by simp [hpar]
        have hne : ¬ ((1 : Int) = 0) := by norm_num
        simp only [pathElems, pathIdxs, hif, hif2, walk, List.head?_cons,
          List.tail_cons, rootOf, Option.some.injEq, hne, if_true, if_false,
          eq_self_iff_true]
        rw [← hsib]
        exact hIH

theorem verifyLoop_map_natToHex (h : List Int → Nat) :
    ∀ (sibs : List Nat) (idxs : List Int) (cur : Nat),
      verifyLoop h cur (sibs.map natToHex) idxs = some (walk h cur sibs idxs)
  | [], _, _ => rfl
  | s :: ss, idxs, cur => by
    simp only [List.map_cons, verifyLoop, jsBigInt_natToHex, walk]
    exact verifyLoop_map_natToHex h ss idxs.tail _

theorem parseLeaves_length :
    ∀ {P : List String} {vs : List Int}, parseLeaves P = some vs → vs.length = P.length
  | [], vs, hp => by
    simp only [parseLeaves, Option.some.injEq] at hp
    simp [← hp]
  | s :: t, vs, hp => by
    simp only [parseLeaves] at hp
    cases h1 : stringToFieldElement? s <;> cases h2 : parseLeaves t <;>
      rw [h1, h2] at hp <;> simp at hp
    rcases hp with rfl
    simp [parseLeaves_length h2]

theorem parseLeaves_getD :
    ∀ {P : List String} {vs : List Int}, parseLeaves P = some vs →
      ∀ i, i < P.length → stringToFieldElement? (P.getD i "") = some (vs.getD i 0)
  | [], _, _, i, hi => by simp at hi
  | s :: t, vs, hp, i, hi => by
    simp only [parseLeaves] at hp
    cases h1 : stringToFieldElement? s <;> cases h2 : parseLeaves t <;>
      rw [h1, h2] at hp <;> simp at hp
    rcases hp with rfl
    cases i with
    | zero => simpa using h1
    | succ i =>
      simp only [List.getD_cons_succ]
      exact parseLeaves_getD h2 i (by simpa using hi)

theorem getD_map_of_lt (f : Int → Nat) :
    ∀ (vs : List Int) (i : Nat), i < vs.length → (vs.map f).getD i 0 = f (vs.getD i 0)
  | [], i, hi => absurd hi (by simp)
  | _ :: t, 0, _ => rfl
  | _ :: t, i + 1, hi => by
    simp only [List.map_cons, List.getD_cons_succ]
    exact getD_map_of_lt f t i (by simpa using hi)

theorem floorLog2_bound : ∀ (f n : Nat), n ≤ f → n < 2 ^ (floorLog2 f n + 1)
  | 0, n, hn => by
    simp only [floorLog2]
    omega
  | f + 1, n, hn => by
    simp only [floorLog2]
    split
    · have hrec := floorLog2_bound f (n / 2) (by omega)
      have hps : (2 : Nat) ^ (floorLog2 f (n / 2) + 1 + 1) =
          2 ^ (floorLog2 f (n / 2) + 1) * 2 := pow_succ 2 _
      omega
    · have h2 : (2 : Nat) ^ (0 + 1) = 2 := by norm_num
      omega

theorem le_padLen (n : Nat) : n ≤ padLen n := by
  unfold padLen ceilLog2
  split
  · have h2 : (2 : Nat) ^ max 1 0 = 2 := by norm_num
    omega
  · have hb := floorLog2_bound (n - 1) (n - 1) (Nat.le_refl _)
    have hmax : max 1 (floorLog2 (n - 1) (n - 1) + 1) =
        floorLog2 (n - 1) (n - 1) + 1 := by omega
    rw [hmax]
    omega

theorem padLeaves_length (l : List String) : (padLeaves l).length = padLen l.length := by
  unfold padLeaves
  have := le_padLen l.length
  simp [List.length_append, List.length_replicate]
  omega

theorem padLen_pow (n : Nat) : padLen n = 2 ^ Nat.max 1 (ceilLog2 n) := rfl

theorem create_ok {h : List Int → Nat} {leaves : List String} {tree : MerkleTree}
    (hc : create h leaves = .ok tree) :
    ∃ vs, parseLeaves (padLeaves leaves) = some vs ∧
      tree.leaves = padLeaves leaves ∧
      tree.levels = buildLevels h (padLeaves leaves).length (vs.map (fun v => h [v])) ∧
      tree.root = natToHex (rootOf tree.levels) := by
  unfold create at hc
  split at hc
  · exact absurd hc (by simp)
  · rcases hp : parseLeaves (padLeaves leaves) with _ | vs <;> rw [hp] at hc
    · exact absurd hc (by simp)
    · have htree := Except.ok.inj hc
      refine ⟨vs, rfl, ?_, ?_, ?_⟩ <;> rw [← htree]

theorem verify_eq_of {h : List Int → Nat} {root leaf : String} {pf : PathProof}
    {lf : Int} {fin : Nat}
    (h1 : stringToFieldElement? leaf = some lf)
    (h2 : verifyLoop h (h [lf]) pf.pathElements pf.pathIndices = some fin) :
    verify h root leaf pf =
      .ok ⟨jsToLower (natToHex fin) == jsToLower root, natToHex fin, root, leaf⟩ := by
  unfold verify
  simp only [h1, h2]

theorem verifyLoop_total (h : List Int → Nat) :
    ∀ (es : List String) (idxs : List Int) (cur : Nat),
      (∀ e ∈ es, (jsBigInt? e).isSome) → ∃ fin, verifyLoop h cur es idxs = some fin
  | [], _, cur, _ => ⟨cur, rfl⟩
  | e :: es, idxs, cur, hall => by
    rcases Option.isSome_iff_exists.mp (hall e (by simp)) with ⟨sib, hsib⟩
    simp only [verifyLoop, hsib]
    exact verifyLoop_total h es idxs.tail _ (fun x hx => hall x (by simp [hx]))

theorem roundtrip_aux {h : List Int → Nat} {leaves : List String} {tree : MerkleTree}
    (hc : create h leaves = .ok tree) (i : Nat) (hi : i < tree.leaves.length) :
    ∃ pf res, proof tree i = .ok pf ∧ pf.leaf = tree.leaves.getD i "" ∧
      verify h tree.root (tree.leaves.getD i "")
          ⟨pf.pathElements, pf.pathIndices⟩ = .ok res ∧
      res.valid = true := by
  obtain ⟨vs, hvs, hleaves, hlevels, hroot⟩ := create_ok hc
  have hPlen : (padLeaves leaves).length = 2 ^ max 1 (ceilLog2 leaves.length) := by
    rw [padLeaves_length, padLen_pow]
  have hiP : i < (padLeaves leaves).length := by rw [← hleaves]; exact hi
  have hvslen : vs.length = (padLeaves leaves).length := parseLeaves_length hvs
  have hL0len : (vs.map (fun v => h [v])).length = 2 ^ max 1 (ceilLog2 leaves.length) := by
    rw [List.length_map, hvslen, hPlen]
  have hpf : proof tree i =
      .ok ⟨tree.leaves.getD i "", i, (pathElems tree.levels i).map natToHex,
           pathIdxs tree.levels i, tree.root⟩ := by
    unfold proof
    rw [if_neg (by omega)]
  have hleaf : stringToFieldElement? (tree.leaves.getD i "") = some (vs.getD i 0) := by
    rw [hleaves]
    exact parseLeaves_getD hvs i hiP
  have hstart : h [vs.getD i 0] = (vs.map (fun v => h [v])).getD i 0 := by
    rw [getD_map_of_lt (fun v => h [v]) vs i (by omega)]
  have hwalk := walk_buildLevels h (max 1 (ceilLog2 leaves.length))
      (padLeaves leaves).length (vs.map (fun v => h [v])) i
      (by rw [hPlen]; exact Nat.le_of_lt (Nat.lt_two_pow _))
      hL0len (by rw [← hPlen]; exact hiP)
  have hloop : verifyLoop h (h [vs.getD i 0])
      ((pathElems tree.levels i).map natToHex) (pathIdxs tree.levels i)
      = some (rootOf tree.levels) := by
    rw [verifyLoop_map_natToHex, hstart, hlevels]
    exact congrArg some hwalk
  refine ⟨_, _, hpf, rfl, verify_eq_of hleaf hloop, ?_⟩
  rw [hroot]
  simp

end Merkle

/-- C1: for every tree built (successfully) from a non-empty leaf
sequence and every index below the padded leaf count, generating a proof
and verifying the corresponding leaf against the tree root succeeds with
valid = true, for every hash oracle. -/
theorem claim_c1_merkle_roundtrip (h : List Int → Nat) (leaves : List String)
    (tree : Merkle.MerkleTree) (hc : Merkle.create h leaves = .ok tree)
    (i : Nat) (hi : i < tree.leaves.length) :
    ∃ pf res, Merkle.proof tree i = .ok pf ∧
      Merkle.verify h tree.root (tree.leaves.getD i "")
          ⟨pf.pathElements, pf.pathIndices⟩ = .ok res ∧
      res.valid = true := by
  rcases Merkle.roundtrip_aux hc i hi with ⟨pf, res, h1, _, h3, h4⟩
  exact ⟨pf, res, h1, h3, h4⟩

/-- A concrete three-leaf tree under the concrete injective oracle, used
by witnesses. -/
def listCodeTree : Merkle.MerkleTree :=
  (Merkle.create listCode ["a", "b", "c"]).toOption.getD ⟨"", [], [], 0⟩

/-- Witness for C1 at a concrete tree and index. -/
theorem claim_c1_merkle_roundtrip_witness :
    Merkle.create listCode ["a", "b", "c"] = .ok listCodeTree ∧
    1 < listCodeTree.leaves.length ∧
    (∃ pf res, Merkle.proof listCodeTree 1 = .ok pf ∧
      Merkle.verify listCode listCodeTree.root (listCodeTree.leaves.getD 1 "")
          ⟨pf.pathElements, pf.pathIndices⟩ = .ok res ∧
      res.valid = true) :=
  ⟨by decide, by decide,
   claim_c1_merkle_roundtrip listCode ["a", "b", "c"] listCodeTree (by decide) 1 (by decide)⟩

/-- C6 counterexample: merkle.verify with a path element string that
BigInt cannot parse raises a SyntaxError (modelled as the error result)
instead of returning a valid = false result, so "never throws for any
inputs" is false. -/
theorem claim_c6_counterexample :
    Merkle.verify listCode "0x0" "a" ⟨["zz"], [0]⟩ =
      .error "SyntaxError: cannot convert path element to a BigInt" := by
  decide

/-- C6 amended: merkle.verify never throws provided the leaf and every
path element parse under BigInt; in particular wrong-length or mismatched
pathElements/pathIndices arrays never cause an exception (a missing
pathIndices entry simply compares unequal to 0). -/
theorem claim_c6_verify_no_throw (h : List Int → Nat) (root leaf : String)
    (pf : Merkle.PathProof)
    (hleaf : (Merkle.stringToFieldElement? leaf).isSome)
    (hpath : ∀ e ∈ pf.pathElements, (jsBigInt? e).isSome) :
    (Merkle.verify h root leaf pf).isOk = true := by
  rcases Option.isSome_iff_exists.mp hleaf with ⟨lf, hlf⟩
  rcases Merkle.verifyLoop_total h pf.pathElements pf.pathIndices (h [lf]) hpath
    with ⟨fin, hfin⟩
  rw [Merkle.verify_eq_of hlf hfin]
  rfl

/-- Witness for the amended C6 at a proof with mismatched array lengths. -/
theorem claim_c6_verify_no_throw_witness :
    (Merkle.stringToFieldElement? "b").isSome ∧
    (∀ e ∈ ["0x1", "0x2"], (jsBigInt? e).isSome) ∧
    (Merkle.verify listCode "0x5" "b" ⟨["0x1", "0x2"], [7]⟩).isOk = true :=
  ⟨by decide, by decide,
   claim_c6_verify_no_throw listCode "0x5" "b" ⟨["0x1", "0x2"], [7]⟩ (by decide) (by decide)⟩

theorem getD_replicate (c : String) :
    ∀ (k j : Nat), j < k → (List.replicate k c).getD j "" = c
  | 0, j, hj => absurd hj (by omega)
  | _ + 1, 0, _ => rfl
  | k + 1, j + 1, hj => by
    simp only [List.replicate_succ, List.getD_cons_succ]
    exact getD_replicate c k j (by omega)

theorem getD_append_right' :
    ∀ (l l' : List String) (i : Nat), l.length ≤ i →
      (l ++ l').getD i "" = l'.getD (i - l.length) ""
  | [], l', i, _ => by simp
  | a :: t, l', 0, hi => by simp at hi
  | a :: t, l', i + 1, hi => by
    simp only [List.cons_append, List.getD_cons_succ]
    rw [getD_append_right' t l' i (by simpa using hi)]
    have he : i + 1 - (a :: t).length = i - t.length := by
      simp only [List.length_cons]; omega
    rw [he]

/-- C9: when the original leaf count k is not a power of two (or is 1),
the padded leaf array is strictly longer than k, merkle.proof accepts
every padding index without an out-of-bounds failure, the proof is for
the sentinel leaf "0", and merkle.verify accepts it against the root. -/
theorem claim_c9_padding_provable (h : List Int → Nat) (leaves : List String)
    (tree : Merkle.MerkleTree) (k : Nat)
    (hc : Merkle.create h leaves = .ok tree) (hk : leaves.length = k)
    (hpow : (¬ ∃ j, k = 2 ^ j) ∨ k = 1) :
    k < tree.leaves.length ∧
    ∀ i, k ≤ i → i < tree.leaves.length →
      tree.leaves.getD i "" = "0" ∧
      ∃ pf res, Merkle.proof tree i = .ok pf ∧ pf.leaf = "0" ∧
        Merkle.verify h tree.root "0" ⟨pf.pathElements, pf.pathIndices⟩ = .ok res ∧
        res.valid = true := by
  obtain ⟨vs, hvs, hleaves, hlevels, hroot⟩ := Merkle.create_ok hc
  have hne : leaves ≠ [] := by
    intro hnil
    rw [hnil] at hc
    exact absurd hc (by simp [Merkle.create])
  have hk1 : 1 ≤ k := by
    rcases leaves with _ | ⟨a, t⟩
    · exact absurd rfl hne
    · simp only [List.length_cons] at hk; omega
  have hlt : k < tree.leaves.length := by
    rw [hleaves, Merkle.padLeaves_length, ← hk]
    rcases hpow with hnp | h1
    · have hle := Merkle.le_padLen leaves.length
      have hneq : leaves.length ≠ Merkle.padLen leaves.length := by
        intro heq
        refine hnp ⟨max 1 (ceilLog2 leaves.length), ?_⟩
        rw [← hk]
        exact heq
      omega
    · rw [hk, h1]; decide
  refine ⟨hlt, fun i hki hilen => ?_⟩
  have hzero : tree.leaves.getD i "" = "0" := by
    rw [hleaves] at hilen ⊢
    unfold Merkle.padLeaves at hilen ⊢
    rw [getD_append_right' leaves _ i (by omega)]
    apply getD_replicate
    simp only [List.length_append, List.length_replicate] at hilen
    omega
  rcases Merkle.roundtrip_aux hc i hilen with ⟨pf, res, h1, h2, h3, h4⟩
  rw [hzero] at h2 h3
  exact ⟨hzero, pf, res, h1, h2, h3, h4⟩

/-- Witness for C9: three leaves, padding index 3 of the padded length 4. -/
theorem claim_c9_padding_provable_witness :
    Merkle.create listCode ["a", "b", "c"] = .ok listCodeTree ∧
    (3 : Nat) < listCodeTree.leaves.length ∧
    listCodeTree.leaves.getD 3 "" = "0" ∧
    (∃ pf res, Merkle.proof listCodeTree 3 = .ok pf ∧ pf.leaf = "0" ∧
      Merkle.verify listCode listCodeTree.root "0"
          ⟨pf.pathElements, pf.pathIndices⟩ = .ok res ∧
      res.valid = true) := by
  have hpow : (¬ ∃ j, (3 : Nat) = 2 ^ j) ∨ (3 : Nat) = 1 := by
    left
    rintro ⟨j, hj⟩
    rcases j with _ | _ | j
    · simp at hj
    · simp at hj
    · have h4 : 4 ≤ 2 ^ (j + 2) := by
        have : (2 : Nat) ^ 2 ≤ 2 ^ (j + 2) := Nat.pow_le_pow_right (by norm_num) (by omega)
        simpa using this
      omega
  have hmain := claim_c9_padding_provable listCode ["a", "b", "c"] listCodeTree 3
    (by decide) (by decide) hpow
  exact ⟨by decide, hmain.1, hmain.2 3 (by omega) hmain.1⟩

namespace Range

structure RangeProof where
  valueCommitment : String
  min : Int
  max : Int
  bits : List Int
  bitCommitments : List String
  salt : String
  valid : Bool
deriving DecidableEq

structure Checks where
  bitsAreBinary : Bool
  valueInRange : Bool
  commitmentsMatch : Bool
deriving DecidableEq

structure RangeVerifyResult where
  valid : Bool
  min : Int
  max : Int
  checks : Checks
deriving DecidableEq

/-- JS ToInt32: reduce into the signed 32-bit window. -/
def toInt32 (z : Int) : Int := (z + 2 ^ 31) % 2 ^ 32 - 2 ^ 31

/-- Models the JS expression `(n >> i) & 1`: both operands pass through
ToInt32, the shift count is taken mod 32, the shift is arithmetic
(floor division), and `& 1` of an int32 is its nonnegative parity. -/
def jsBit (n : Int) (i : Nat) : Int := (toInt32 n).fdiv (2 ^ (i % 32)) % 2

/-- Models `bitWidth = Math.max(1, Math.ceil(Math.log2(rangeSize + 1)))`. -/
def bitWidth (rangeSize : Nat) : Nat := max 1 (ceilLog2 (rangeSize + 1))

/-- Models range.prove; `rand` is the integer value of the generated
random salt hex string. -/
def prove (h : List Int → Nat) (rand : Nat) (value min max : Int) : RangeProof :=
  if value < min ∨ max < value then
    ⟨"0x0", min, max, [], [], "0x0", false⟩
  else
    ⟨natToHex (h [value, (rand : Int)]), min, max,
     (List.range (bitWidth (max - min).toNat)).map (fun i => jsBit (value - min) i),
     (List.range (bitWidth (max - min).toNat)).map
       (fun i => natToHex (h [jsBit (value - min) i, (rand : Int), (i : Int)])),
     natToHex rand, true⟩

/-- Models `normalizedValue += bits[i] * 2**i` from position `pos`
(exact integer arithmetic; the double-precision powers the code uses are
exact for every width producible by prove). -/
def recVal : List Int → Nat → Int
  | [], _ => 0
  | b :: t, pos => b * 2 ^ pos + recVal t (pos + 1)

/-- The bit-commitment comparison loop of range.verify: breaks with false
on the first mismatch, and reading `bitCommitments[i]` past the end of
the array yields undefined, whose `.toLowerCase()` throws a TypeError. -/
def bitLoop (h : List Int → Nat) (salt : Int) :
    List Int → List String → Nat → Except String Bool
  | [], _, _ => .ok true
  | b :: bs, cs, i =>
    match cs with
    | [] => .error "TypeError: cannot read toLowerCase of undefined"
    | c :: cs' =>
      if jsToLower (natToHex (h [b, salt, (i : Int)])) ≠ jsToLower c then .ok false
      else bitLoop h salt bs cs' (i + 1)

/-- Models range.verify: the two early exits, then the binary check, the
range check on the reconstructed value, and the commitment comparisons;
`BigInt(proof.salt)` can throw on a malformed salt string. -/
def verify (h : List Int → Nat) (p : RangeProof) : Except String RangeVerifyResult :=
  if p.valid = false ∨ p.bits = [] then
    .ok ⟨false, p.min, p.max, ⟨false, false, false⟩⟩
  else if ¬ (∀ b ∈ p.bits, b = 0 ∨ b = 1) then
    .ok ⟨false, p.min, p.max, ⟨false, false, false⟩⟩
  else if ¬ (p.min ≤ recVal p.bits 0 + p.min ∧ recVal p.bits 0 + p.min ≤ p.max) then
    .ok ⟨false, p.min, p.max, ⟨true, false, false⟩⟩
  else
    match jsBigInt? p.salt with
    | none => .error "SyntaxError: cannot convert salt to a BigInt"
    | some saltI =>
      match bitLoop h saltI p.bits p.bitCommitments 0 with
      | .error e => .error e
      | .ok bitsMatch =>
        .ok ⟨bitsMatch &&
               (jsToLower (natToHex (h [recVal p.bits 0 + p.min, saltI])) ==
                 jsToLower p.valueCommitment),
             p.min, p.max,
             ⟨true, true,
              bitsMatch &&
                (jsToLower (natToHex (h [recVal p.bits 0 + p.min, saltI])) ==
                  jsToLower p.valueCommitment)⟩⟩

theorem floorLog2_le : ∀ (f n j : Nat), n < 2 ^ (j + 1) → floorLog2 f n ≤ j
  | 0, n, j, _ => by simp [floorLog2]
  | f + 1, n, j, hj => by
    simp only [floorLog2]
    split
    · cases j with
      | zero =>
        have h2 : (2 : Nat) ^ (0 + 1) = 2 := by norm_num
        omega
      | succ j =>
        have hp : (2 : Nat) ^ (j + 1 + 1) = 2 ^ (j + 1) * 2 := pow_succ 2 _
        have hrec := floorLog2_le f (n / 2) j (by omega)
        omega
    · omega

theorem ceilLog2_le {m k : Nat} (hm : m ≤ 2 ^ k) : ceilLog2 m ≤ k := by
  unfold ceilLog2
  split
  · omega
  · have hk1 : 1 ≤ k := by
      by_contra hk0
      have : k = 0 := by omega
      subst this
      simp at hm
      omega
    have hlt : m - 1 < 2 ^ ((k - 1) + 1) := by
      have : (k - 1) + 1 = k := by omega
      rw [this]
      omega
    have := floorLog2_le (m - 1) (m - 1) (k - 1) hlt
    omega

theorem lt_two_pow_bitWidth (r : Nat) : r < 2 ^ bitWidth r := by
  unfold bitWidth ceilLog2
  split
  · have h2 : (2 : Nat) ^ max 1 0 = 2 := by norm_num
    omega
  · have hb := Merkle.floorLog2_bound r r (Nat.le_refl r)
    have hm : max 1 (floorLog2 r r + 1) = floorLog2 r r + 1 := by omega
    have hr : r + 1 - 1 = r := by omega
    rw [hr, hm]
    exact hb

theorem bitWidth_le {r k : Nat} (hr : r < 2 ^ k) (hk : 1 ≤ k) : bitWidth r ≤ k := by
  unfold bitWidth
  have := ceilLog2_le (show r + 1 ≤ 2 ^ k by omega)
  omega

theorem one_le_bitWidth (r : Nat) : 1 ≤ bitWidth r := by
  unfold bitWidth
  omega

theorem toInt32_of_lt {n : Int} (h0 : 0 ≤ n) (h1 : n < 2 ^ 31) : toInt32 n = n := by
  unfold toInt32
  omega

theorem toInt32_of_ge {n : Int} (h0 : 2 ^ 31 ≤ n) (h1 : n < 2 ^ 32) :
    toInt32 n = n - 2 ^ 32 := by
  unfold toInt32
  omega

theorem jsBit_spec {n : Int} (h0 : 0 ≤ n) (h1 : n < 2 ^ 32) {i : Nat} (hi : i < 32) :
    jsBit n i = ((n.toNat / 2 ^ i % 2 : Nat) : Int) := by
  have him : i % 32 = i := Nat.mod_eq_of_lt hi
  have hpos : (0 : Int) ≤ 2 ^ i := by positivity
  have hcast : ((n.toNat : Int)) = n := Int.toNat_of_nonneg h0
  unfold jsBit
  rw [him, Int.fdiv_eq_ediv _ hpos]
  rcases lt_or_le n (2 ^ 31) with hsm | hbg
  · rw [toInt32_of_lt h0 hsm, ← hcast]
    push_cast [Int.ofNat_ediv]
    norm_cast
  · rw [toInt32_of_ge hbg h1]
    have hsplit : n - 2 ^ 32 = n + (-(2 ^ (32 - i))) * 2 ^ i := by
      have h32 : (2 : Int) ^ (32 - i) * 2 ^ i = 2 ^ 32 := by
        rw [← pow_add]
        congr 1
        omega
      linear_combination h32
    rw [hsplit, Int.add_mul_ediv_right _ _ (by positivity)]
    have heven : (-(2 ^ (32 - i)) : Int) = 2 * (-(2 ^ (32 - i - 1))) := by
      have : (2 : Int) ^ (32 - i) = 2 * 2 ^ (32 - i - 1) := by
        rw [← pow_succ']
        congr 1
        omega
      rw [this]
      ring
    rw [heven, Int.add_mul_emod_self_left, ← hcast]
    push_cast [Int.ofNat_ediv]
    norm_cast

theorem map_congr_mem {α β : Type} :
    ∀ (l : List α) (f g : α → β), (∀ x ∈ l, f x = g x) → l.map f = l.map g
  | [], _, _, _ => rfl
  | a :: t, f, g, hfg => by
    simp only [List.map_cons]
    rw [hfg a (by simp), map_congr_mem t f g (fun x hx => hfg x (by simp [hx]))]

theorem recVal_bits :
    ∀ (w n : Nat), n < 2 ^ w →
      ∀ k, recVal ((List.range w).map (fun i => ((n / 2 ^ i % 2 : Nat) : Int))) k =
        (n : Int) * 2 ^ k := by
  intro w
  induction w with
  | zero =>
    intro n hn k
    have : n = 0 := by simpa using hn
    subst this
    simp [recVal]
  | succ w ih =>
    intro n hn k
    rw [List.range_succ_eq_map, List.map_cons, List.map_map]
    have hfun : (List.range w).map ((fun i => ((n / 2 ^ i % 2 : Nat) : Int)) ∘ Nat.succ) =
        (List.range w).map (fun i => ((n / 2 / 2 ^ i % 2 : Nat) : Int)) := by
      apply map_congr_mem
      intro x _
      have hdd : n / 2 ^ (x + 1) = n / 2 / 2 ^ x := by
        rw [Nat.div_div_eq_div_mul, ← pow_succ']
      simp only [Function.comp, Nat.succ_eq_add_one, hdd]
    rw [hfun]
    have hp : (2 : Nat) ^ (w + 1) = 2 ^ w * 2 := pow_succ 2 w
    have hrec := ih (n / 2) (by omega) (k + 1)
    simp only [recVal, hrec]
    have hsplit : (n : Int) = ((n % 2 : Nat) : Int) + 2 * ((n / 2 : Nat) : Int) := by
      push_cast
      omega
    have h20 : (2 : Nat) ^ 0 = 1 := rfl
    simp only [h20, Nat.div_one, pow_succ]
    rw [hsplit]
    ring

theorem bitLoop_range' (h : List Int → Nat) (salt : Int) (bf : Nat → Int) :
    ∀ (len i0 : Nat),
      bitLoop h salt ((List.range' i0 len).map bf)
        ((List.range' i0 len).map (fun i => natToHex (h [bf i, salt, (i : Int)]))) i0 =
      .ok true
  | 0, i0 => rfl
  | len + 1, i0 => by
    simp only [List.range', List.map_cons, bitLoop]
    rw [if_neg (by simp)]
    exact bitLoop_range' h salt bf len (i0 + 1)

end Range

/-- C5: for any out-of-range value, range.prove returns (it cannot throw:
the early return precedes every conversion and hash call, and the model
is a total function) a proof object with valid = false and empty bits and
bitCommitments arrays. -/
theorem claim_c5_prove_out_of_range (h : List Int → Nat) (rand : Nat)
    (value min max : Int) (hout : value < min ∨ max < value) :
    Range.prove h rand value min max = ⟨"0x0", min, max, [], [], "0x0", false⟩ := by
  unfold Range.prove
  rw [if_pos hout]

/-- Witness for C5 at the spec's own example prove(15, 18, 100). -/
theorem claim_c5_prove_out_of_range_witness :
    ((15 : Int) < 18 ∨ (100 : Int) < 15) ∧
    Range.prove listCode 0 15 18 100 = ⟨"0x0", 18, 100, [], [], "0x0", false⟩ :=
  ⟨by norm_num, claim_c5_prove_out_of_range listCode 0 15 18 100 (by norm_num)⟩

/-- C10: range.verify trusts the proof's own valid flag: whenever the
flag is false or the bits array is empty it returns immediately with all
three checks reported false, recomputing nothing; in particular a proof
whose commitments are all correct but whose valid field is false is
rejected. -/
theorem claim_c10_verify_early_exit (h : List Int → Nat) (p : Range.RangeProof)
    (hp : p.valid = false ∨ p.bits = []) :
    Range.verify h p = .ok ⟨false, p.min, p.max, ⟨false, false, false⟩⟩ := by
  unfold Range.verify
  rw [if_pos hp]

/-- Witness for C10: a proof with plausible commitments but valid=false. -/
theorem claim_c10_verify_early_exit_witness :
    (Range.RangeProof.mk "0xab" 0 10 [1, 0] ["0x1", "0x2"] "0x0" false).valid = false ∧
    Range.verify listCode ⟨"0xab", 0, 10, [1, 0], ["0x1", "0x2"], "0x0", false⟩ =
      .ok ⟨false, 0, 10, ⟨false, false, false⟩⟩ :=
  ⟨rfl, claim_c10_verify_early_exit listCode
    ⟨"0xab", 0, 10, [1, 0], ["0x1", "0x2"], "0x0", false⟩ (Or.inl rfl)⟩

/-- C2 counterexample: at value = 2^32, min = 0, max = 2^32 (all integers
with min <= value <= max), the 32-bit semantics of `>>` make every
extracted bit 0, so the bits do not reconstruct the value and
verification cannot pass: the claim quantified over all integers fails. -/
theorem claim_c2_counterexample :
    ¬ ((Range.prove listCode 0 (2 ^ 32) 0 (2 ^ 32)).valid = true ∧
       Range.recVal (Range.prove listCode 0 (2 ^ 32) 0 (2 ^ 32)).bits 0 + 0 = 2 ^ 32 ∧
       Range.verify listCode (Range.prove listCode 0 (2 ^ 32) 0 (2 ^ 32)) =
         .ok ⟨true, 0, 2 ^ 32, ⟨true, true, true⟩⟩) := by
  intro hcl
  exact absurd hcl.2.1 (by decide)

/-- C2 amended: for all integers min <= value <= max with
max - min < 2^32 (the regime where 32-bit bit extraction is faithful;
the counterexample shows the bound is tight), prove yields valid = true,
the bits reconstruct the value (sum bits[i]*2^i + min = value), and
verify passes with all three checks true, for every hash oracle. -/
theorem claim_c2_range_roundtrip (h : List Int → Nat) (rand : Nat)
    (value lo hi : Int) (hvlo : lo ≤ value) (hvhi : value ≤ hi)
    (hw32 : hi - lo < 2 ^ 32) :
    (Range.prove h rand value lo hi).valid = true ∧
    Range.recVal (Range.prove h rand value lo hi).bits 0 + lo = value ∧
    Range.verify h (Range.prove h rand value lo hi) =
      .ok ⟨true, lo, hi, ⟨true, true, true⟩⟩ := by
  have hnot : ¬ (value < lo ∨ hi < value) := by omega
  have hp : Range.prove h rand value lo hi =
      ⟨natToHex (h [value, (rand : Int)]), lo, hi,
       (List.range (Range.bitWidth (hi - lo).toNat)).map (fun i => Range.jsBit (value - lo) i),
       (List.range (Range.bitWidth (hi - lo).toNat)).map
         (fun i => natToHex (h [Range.jsBit (value - lo) i, (rand : Int), (i : Int)])),
       natToHex rand, true⟩ := by
    unfold Range.prove
    rw [if_neg hnot]
  have hm : ((value - lo).toNat : Int) = value - lo := Int.toNat_of_nonneg (by omega)
  have hr32 : (hi - lo).toNat < 2 ^ 32 := by omega
  have hwle : Range.bitWidth (hi - lo).toNat ≤ 32 :=
    Range.bitWidth_le (by exact_mod_cast hr32) (by norm_num)
  have hmlt : (value - lo).toNat < 2 ^ Range.bitWidth (hi - lo).toNat := by
    have h1 := Range.lt_two_pow_bitWidth (hi - lo).toNat
    have h2 : (value - lo).toNat ≤ (hi - lo).toNat := by omega
    omega
  have hbits : (List.range (Range.bitWidth (hi - lo).toNat)).map
        (fun i => Range.jsBit (value - lo) i) =
      (List.range (Range.bitWidth (hi - lo).toNat)).map
        (fun i => (((value - lo).toNat / 2 ^ i % 2 : Nat) : Int)) := by
    apply Range.map_congr_mem
    intro i hi2
    have hi32 : i < 32 := by
      have := List.mem_range.mp hi2
      omega
    exact Range.jsBit_spec (by omega) (by omega) hi32
  have hrec : Range.recVal ((List.range (Range.bitWidth (hi - lo).toNat)).map
        (fun i => Range.jsBit (value - lo) i)) 0 = value - lo := by
    rw [hbits, Range.recVal_bits _ _ hmlt 0]
    simp [hm]
  have hvalrec : Range.recVal ((List.range (Range.bitWidth (hi - lo).toNat)).map
        (fun i => Range.jsBit (value - lo) i)) 0 + lo = value := by
    rw [hrec]; ring
  refine ⟨by rw [hp], by rw [hp]; exact hvalrec, ?_⟩
  have hall : ∀ b ∈ (List.range (Range.bitWidth (hi - lo).toNat)).map
      (fun i => Range.jsBit (value - lo) i), b = 0 ∨ b = 1 := by
    rw [hbits]
    intro b hb
    rcases List.mem_map.mp hb with ⟨i, _, rfl⟩
    have h2 : (value - lo).toNat / 2 ^ i % 2 = 0 ∨ (value - lo).toNat / 2 ^ i % 2 = 1 := by
      omega
    rcases h2 with h0 | h0
    · left; rw [h0]; rfl
    · right; rw [h0]; rfl
  have hne : (List.range (Range.bitWidth (hi - lo).toNat)).map
      (fun i => Range.jsBit (value - lo) i) ≠ [] := by
    have h1 := Range.one_le_bitWidth (hi - lo).toNat
    intro hcontra
    have := congrArg List.length hcontra
    simp at this
    omega
  have hbl : Range.bitLoop h (rand : Int)
      ((List.range (Range.bitWidth (hi - lo).toNat)).map
        (fun i => Range.jsBit (value - lo) i))
      ((List.range (Range.bitWidth (hi - lo).toNat)).map
        (fun i => natToHex (h [Range.jsBit (value - lo) i, (rand : Int), (i : Int)])))
      0 = .ok true := by
    rw [List.range_eq_range']
    exact Range.bitLoop_range' h _ _ _ 0
  rw [hp]
  unfold Range.verify
  dsimp only
  rw [if_neg (by
    rintro (hv | hb)
    · simp at hv
    · exact hne hb)]
  rw [if_neg (not_not_intro hall)]
  rw [hvalrec]
  rw [if_neg (not_not_intro ⟨hvlo, hvhi⟩)]
  simp only [jsBigInt_natToHex, hbl]
  simp

/-- Witness for the amended C2 at the spec's example prove(25, 18, 100). -/
theorem claim_c2_range_roundtrip_witness :
    ((18 : Int) ≤ 25 ∧ (25 : Int) ≤ 100 ∧ (100 : Int) - 18 < 2 ^ 32) ∧
    ((Range.prove listCode 0 25 18 100).valid = true ∧
     Range.recVal (Range.prove listCode 0 25 18 100).bits 0 + 18 = 25 ∧
     Range.verify listCode (Range.prove listCode 0 25 18 100) =
       .ok ⟨true, 18, 100, ⟨true, true, true⟩⟩) :=
  ⟨⟨by norm_num, by norm_num, by norm_num⟩,
   claim_c2_range_roundtrip listCode 0 25 18 100 (by norm_num) (by norm_num) (by norm_num)⟩

namespace Commit

structure CommitmentResult where
  commitment : String
  salt : String
  value : String
  algorithm : String
deriving DecidableEq

structure RevealResult where
  valid : Bool
  commitment : String
  revealedValue : String
  salt : String
deriving DecidableEq

instance : Inhabited CommitmentResult := ⟨⟨"", "", "", ""⟩⟩

/-- Two lowercase hex digits of one byte (`b.toString(16).padStart(2,"0")`
inside Buffer hex encoding). -/
def byteHexChars (b : Nat) : List Char := [hexDigitChar (b / 16), hexDigitChar (b % 16)]

/-- The 64 salt hex characters derived from a secret:
`Buffer.from(secret).toString("hex").padEnd(64, "0").slice(0, 64)`. -/
def saltChars (secret : String) : List Char :=
  (((utf8Bytes secret).flatMap byteHexChars) ++
    List.replicate (64 - ((utf8Bytes secret).flatMap byteHexChars).length) '0').take 64

/-- The derived salt hex string `"0x" + ...`. -/
def saltStr (secret : String) : String := String.mk ('0' :: 'x' :: saltChars secret)

/-- Models `hexToFieldElement(saltStr secret)`: the chars are all hex
digits, so the BigInt parse cannot fail and the default is never taken. -/
def saltVal (secret : String) : Nat := (parseRadix hexVal? 16 (saltChars secret) 0).getD 0

/-- Models `value.toString()` for the audit/display field. -/
def valueToString : Value → String
  | .num n => toString n
  | .big n => toString n
  | .str s => s

/-- Models commit.create; `rand` is the integer value of the random salt
drawn when `secret` is absent — or empty, since the code tests JS
truthiness (`secret ? derived : random`). -/
def create (h : List Int → Nat) (jsNum : String → Option Int) (rand : Nat)
    (value : Value) (secret : Option String) : Except String CommitmentResult :=
  match valueToFieldElement? jsNum value with
  | none => .error "SyntaxError: cannot convert value to a BigInt"
  | some vf =>
    match secret with
    | some s =>
      if s = "" then
        .ok ⟨natToHex (h [vf, (rand : Int)]), natToHex rand,
             valueToString value, "Pedersen-Poseidon"⟩
      else
        .ok ⟨natToHex (h [vf, (saltVal s : Int)]), saltStr s,
             valueToString value, "Pedersen-Poseidon"⟩
    | none =>
      .ok ⟨natToHex (h [vf, (rand : Int)]), natToHex rand,
           valueToString value, "Pedersen-Poseidon"⟩

/-- Models commit.reveal: the salt is always re-derived from the secret
(no truthiness test here), the commitment recomputed and compared
case-insensitively. -/
def reveal (h : List Int → Nat) (jsNum : String → Option Int)
    (commitment : String) (value : Value) (secret : String) :
    Except String RevealResult :=
  match valueToFieldElement? jsNum value with
  | none => .error "SyntaxError: cannot convert value to a BigInt"
  | some vf =>
    .ok ⟨jsToLower (natToHex (h [vf, (saltVal secret : Int)])) == jsToLower commitment,
         commitment, valueToString value, saltStr secret⟩

end Commit

/-- C3 counterexample: with the empty-string secret (present, but falsy
in JS), create draws a random salt (here of value 1) while reveal derives
the all-zero salt from "", so the round trip the claim asserts for every
(value, secret) pair fails at secret = "". -/
theorem claim_c3_counterexample :
    (Commit.create listCode (fun _ => none) 1 (Value.num 5) (some "")).map
        (fun c => (Commit.reveal listCode (fun _ => none) c.commitment
          (Value.num 5) "").map Commit.RevealResult.valid)
      = .ok (.ok false) := by
  decide

/-- C3 amended: for every value that encodes and every NON-empty secret,
reveal(create(value, secret).commitment, value, secret).valid = true,
both sides deriving the salt identically; the random-salt fallback fires
when the secret is absent or empty (JS truthiness), not only when
absent. -/
theorem claim_c3_commit_roundtrip (h : List Int → Nat) (jsNum : String → Option Int)
    (rand : Nat) (value : Value) (secret : String) (hs : secret ≠ "")
    (vf : Int) (hvf : Commit.valueToFieldElement? jsNum value = some vf) :
    ∃ c, Commit.create h jsNum rand value (some secret) = .ok c ∧
      Commit.reveal h jsNum c.commitment value secret =
        .ok ⟨true, c.commitment, Commit.valueToString value, Commit.saltStr secret⟩ := by
  unfold Commit.create Commit.reveal
  simp only [hvf]
  rw [if_neg hs]
  refine ⟨_, rfl, ?_⟩
  dsimp only
  rw [beq_self_eq_true]

/-- Witness for the amended C3. -/
theorem claim_c3_commit_roundtrip_witness :
    ("my_random_secret" ≠ "") ∧
    Commit.valueToFieldElement? (fun _ => none) (Value.num 100) = some 100 ∧
    (∃ c, Commit.create listCode (fun _ => none) 0 (Value.num 100)
        (some "my_random_secret") = .ok c ∧
      Commit.reveal listCode (fun _ => none) c.commitment (Value.num 100)
          "my_random_secret" =
        .ok ⟨true, c.commitment, Commit.valueToString (Value.num 100),
             Commit.saltStr "my_random_secret"⟩) :=
  ⟨by decide, rfl,
   claim_c3_commit_roundtrip listCode (fun _ => none) 0 (Value.num 100)
     "my_random_secret" (by decide) 100 rfl⟩

/-- The counterexample jsNum for C4, agreeing with JS Number at "100". -/
def c4jsNum : String → Option Int := fun s => if s = "100" then some 100 else none

/-- C4 counterexample: the JS number 100 and the string "100" are
distinct values, yet reveal accepts "100" against a commitment created
for 100 under the same secret, because valueToFieldElement sends both to
the field element 100: binding fails at the public interface. -/
theorem claim_c4_counterexample :
    Value.num 100 ≠ Value.str "100" ∧
    (Commit.create listCode c4jsNum 0 (Value.num 100) (some "s")).map
        (fun c => (Commit.reveal listCode c4jsNum c.commitment
          (Value.str "100") "s").map Commit.RevealResult.valid)
      = .ok (.ok true) := by
  constructor
  · decide
  · decide

/-- C4 amended: binding holds at the encoding level: when the hash oracle
is injective (the collision-resistance interface assumption) and the
claimed value encodes to a field element different from the committed
value's, reveal returns valid = false; distinct surface values with equal
encodings do open the same commitment. -/
theorem claim_c4_commit_binding (h : List Int → Nat) (jsNum : String → Option Int)
    (rand : Nat) (value value' : Value) (secret : String)
    (hinj : Function.Injective h) (vf vf' : Int)
    (hvf : Commit.valueToFieldElement? jsNum value = some vf)
    (hvf' : Commit.valueToFieldElement? jsNum value' = some vf')
    (hne : vf ≠ vf') (c : Commit.CommitmentResult)
    (hc : Commit.create h jsNum rand value (some secret) = .ok c) :
    (Commit.reveal h jsNum c.commitment value' secret).map
        Commit.RevealResult.valid = .ok false := by
  unfold Commit.create at hc
  simp only [hvf] at hc
  have hcom : ∃ s1 : Int, c.commitment = natToHex (h [vf, s1]) := by
    by_cases hse : secret = ""
    · rw [if_pos hse] at hc
      exact ⟨(rand : Int), by rw [← Except.ok.inj hc]⟩
    · rw [if_neg hse] at hc
      exact ⟨(Commit.saltVal secret : Int), by rw [← Except.ok.inj hc]⟩
  rcases hcom with ⟨s1, hs1⟩
  unfold Commit.reveal
  rw [hvf']
  dsimp only [Except.map]
  congr 1
  rw [hs1, jsToLower_natToHex, jsToLower_natToHex]
  rw [beq_eq_false_iff_ne]
  intro heq
  have hlist := hinj (natToHex_injective heq)
  have : vf' = vf := by
    injection hlist with h1 _
  exact hne this.symm

/-- The concrete created commitment used by the C4 witness. -/
def c4res : Commit.CommitmentResult :=
  (Commit.create listCode (fun _ => none) 0 (Value.num 1) (some "s")).toOption.getD default

/-- Witness for the amended C4 at committed value 1, claimed value 2. -/
theorem claim_c4_commit_binding_witness :
    Commit.valueToFieldElement? (fun _ => none) (Value.num 1) = some 1 ∧
    Commit.valueToFieldElement? (fun _ => none) (Value.num 2) = some 2 ∧
    (1 : Int) ≠ 2 ∧
    Commit.create listCode (fun _ => none) 0 (Value.num 1) (some "s") = .ok c4res ∧
    (Commit.reveal listCode (fun _ => none) c4res.commitment (Value.num 2) "s").map
        Commit.RevealResult.valid = .ok false :=
  ⟨rfl, rfl, by decide, by decide,
   claim_c4_commit_binding listCode (fun _ => none) 0 (Value.num 1) (Value.num 2) "s"
     listCode_injective 1 2 rfl rfl (by decide) c4res (by decide)⟩

/-- C7 counterexample: the commit module's encoder first applies JS
Number to plain strings, so "7" (no 0x prefix) maps to its numeric value
7 rather than to the byte accumulation 55 that the merkle and hash
encoders produce; the jsNum parameter is instantiated consistently with
JS at "7" (Number("7") is the finite 7, floored to 7). -/
theorem claim_c7_counterexample :
    Commit.valueToFieldElement? (fun s => if s = "7" then some 7 else none)
        (Value.str "7") = some 7 ∧
    Merkle.stringToFieldElement? "7" = some 55 ∧
    byteAccum "7" = 55 ∧ (7 : Int) ≠ 55 := by
  refine ⟨by decide, by decide, by decide, by decide⟩

/-- C7 amended: the merkle and hash-module encoders map every non-0x
string to the big-endian base-256 accumulation of its first 31 UTF-8
bytes, so any two non-0x strings agreeing on those bytes collide in both;
the commit module's encoder does the same only for strings that JS Number
does not parse to a finite value (numeric strings take their floored
numeric value instead). -/
theorem claim_c7_string_encoding (jsNum : String → Option Int) (s t : String)
    (hs : startsWith0x s = false) (ht : startsWith0x t = false) :
    Merkle.stringToFieldElement? s = some (byteAccum s : Int) ∧
    HashMod.stringToFieldElement s = (byteAccum s : Int) ∧
    (jsNum s = none →
      Commit.valueToFieldElement? jsNum (Value.str s) = some (byteAccum s : Int)) ∧
    ((utf8Bytes s).take 31 = (utf8Bytes t).take 31 →
      Merkle.stringToFieldElement? s = Merkle.stringToFieldElement? t ∧
      HashMod.stringToFieldElement s = HashMod.stringToFieldElement t ∧
      (jsNum s = none → jsNum t = none →
        Commit.valueToFieldElement? jsNum (Value.str s) =
          Commit.valueToFieldElement? jsNum (Value.str t))) := by
  have hacc : (utf8Bytes s).take 31 = (utf8Bytes t).take 31 → byteAccum s = byteAccum t := by
    intro htake
    unfold byteAccum
    rw [htake]
  have hm : Merkle.stringToFieldElement? s = some (byteAccum s : Int) := by
    unfold Merkle.stringToFieldElement?
    rw [hs]
    rfl
  have hmt : Merkle.stringToFieldElement? t = some (byteAccum t : Int) := by
    unfold Merkle.stringToFieldElement?
    rw [ht]
    rfl
  have hcs : jsNum s = none →
      Commit.valueToFieldElement? jsNum (Value.str s) = some (byteAccum s : Int) := by
    intro hnum
    simp [Commit.valueToFieldElement?, hs, hnum]
  have hct : jsNum t = none →
      Commit.valueToFieldElement? jsNum (Value.str t) = some (byteAccum t : Int) := by
    intro hnum
    simp [Commit.valueToFieldElement?, ht, hnum]
  refine ⟨hm, rfl, hcs, fun htake => ?_⟩
  have he := hacc htake
  refine ⟨by rw [hm, hmt, he], ?_, fun hn1 hn2 => by rw [hcs hn1, hct hn2, he]⟩
  unfold HashMod.stringToFieldElement
  rw [he]

/-- Witness for the amended C7 on two 32-character strings sharing their
first 31 bytes. -/
theorem claim_c7_string_encoding_witness :
    startsWith0x "abcdefghijklmnopqrstuvwxyz012345" = false ∧
    startsWith0x "abcdefghijklmnopqrstuvwxyz01234Z" = false ∧
    (Merkle.stringToFieldElement? "abcdefghijklmnopqrstuvwxyz012345" =
        some (byteAccum "abcdefghijklmnopqrstuvwxyz012345" : Int) ∧
      HashMod.stringToFieldElement "abcdefghijklmnopqrstuvwxyz012345" =
        (byteAccum "abcdefghijklmnopqrstuvwxyz012345" : Int) ∧
      ((fun _ => (none : Option Int)) "abcdefghijklmnopqrstuvwxyz012345" = none →
        Commit.valueToFieldElement? (fun _ => none)
            (Value.str "abcdefghijklmnopqrstuvwxyz012345") =
          some (byteAccum "abcdefghijklmnopqrstuvwxyz012345" : Int)) ∧
      ((utf8Bytes "abcdefghijklmnopqrstuvwxyz012345").take 31 =
          (utf8Bytes "abcdefghijklmnopqrstuvwxyz01234Z").take 31 →
        Merkle.stringToFieldElement? "abcdefghijklmnopqrstuvwxyz012345" =
          Merkle.stringToFieldElement? "abcdefghijklmnopqrstuvwxyz01234Z" ∧
        HashMod.stringToFieldElement "abcdefghijklmnopqrstuvwxyz012345" =
          HashMod.stringToFieldElement "abcdefghijklmnopqrstuvwxyz01234Z" ∧
        ((fun _ => (none : Option Int)) "abcdefghijklmnopqrstuvwxyz012345" = none →
          (fun _ => (none : Option Int)) "abcdefghijklmnopqrstuvwxyz01234Z" = none →
          Commit.valueToFieldElement? (fun _ => none)
              (Value.str "abcdefghijklmnopqrstuvwxyz012345") =
            Commit.valueToFieldElement? (fun _ => none)
              (Value.str "abcdefghijklmnopqrstuvwxyz01234Z")))) :=
  ⟨by decide, by decide,
   claim_c7_string_encoding (fun _ => none) "abcdefghijklmnopqrstuvwxyz012345"
     "abcdefghijklmnopqrstuvwxyz01234Z" (by decide) (by decide)⟩

namespace Nullifier

/-- Modelled from the spec: the nullifier registry is not among the
source files (src only lists it as a category in getInfo); data model
follows section 4.5: a caller-owned set with a scope string and a set of
normalized (lowercase) nullifier strings. -/
structure NullifierSet where
  scope : String
  members : List String
deriving DecidableEq

/-- Modelled from the spec: `addToSet(set, nullifierHash)` normalizes to
lowercase hex; returns true and mutates the set if absent, false with no
mutation if already present.  Mutation is explicit state passing: the
second component is the set after the call. -/
def addToSet (set : NullifierSet) (nullifierHash : String) : Bool × NullifierSet :=
  if jsToLower nullifierHash ∈ set.members then (false, set)
  else (true, ⟨set.scope, set.members ++ [jsToLower nullifierHash]⟩)

/-- Modelled from the spec: `isInSet` is a pure membership check with no
mutation (purity is structural here: it returns only a Bool and takes the
set by value). -/
def isInSet (set : NullifierSet) (nullifierHash : String) : Bool :=
  decide (jsToLower nullifierHash ∈ set.members)

end Nullifier

/-- C8: addToSet returns true exactly on the first call for a value
(mutating the set by appending the normalized value) and false with no
mutation on every later call with any case-variant of the same value;
isInSet reflects membership and, by its shape, never mutates. -/
theorem claim_c8_nullifier_double_spend (set : Nullifier.NullifierSet) (n : String) :
    (Nullifier.isInSet set n = false →
      Nullifier.addToSet set n =
        (true, ⟨set.scope, set.members ++ [jsToLower n]⟩)) ∧
    (Nullifier.isInSet set n = true → Nullifier.addToSet set n = (false, set)) ∧
    (∀ n', jsToLower n' = jsToLower n →
      Nullifier.isInSet (Nullifier.addToSet set n).2 n' = true ∧
      Nullifier.addToSet (Nullifier.addToSet set n).2 n' =
        (false, (Nullifier.addToSet set n).2)) := by
  by_cases hm : jsToLower n ∈ set.members
  · refine ⟨fun hf => ?_, fun _ => ?_, fun n' hn' => ?_⟩
    · exfalso
      rw [Nullifier.isInSet, decide_eq_false_iff_not] at hf
      exact hf hm
    · simp [Nullifier.addToSet, hm]
    · constructor
      · simp [Nullifier.addToSet, Nullifier.isInSet, hm, hn']
      · simp [Nullifier.addToSet, hm, hn']
  · refine ⟨fun _ => ?_, fun ht => ?_, fun n' hn' => ?_⟩
    · simp [Nullifier.addToSet, hm]
    · exfalso
      rw [Nullifier.isInSet, decide_eq_true_eq] at ht
      exact hm ht
    · have hmem : jsToLower n' ∈ set.members ++ [jsToLower n] := by
        rw [hn']
        simp
      constructor
      · simp [Nullifier.addToSet, Nullifier.isInSet, hm, hmem]
      · simp [Nullifier.addToSet, hm, hmem]

/-- Witness for C8 on a fresh set and the case-variant pair 0xAB/0xaB. -/
theorem claim_c8_nullifier_double_spend_witness :
    Nullifier.isInSet ⟨"scope", []⟩ "0xAB" = false ∧
    Nullifier.addToSet ⟨"scope", []⟩ "0xAB" = (true, ⟨"scope", ["0xab"]⟩) ∧
    Nullifier.isInSet ⟨"scope", ["0xab"]⟩ "0xaB" = true ∧
    Nullifier.addToSet ⟨"scope", ["0xab"]⟩ "0xaB" = (false, ⟨"scope", ["0xab"]⟩) :=
  ⟨by decide,
   (claim_c8_nullifier_double_spend ⟨"scope", []⟩ "0xAB").1 (by decide),
   by decide,
   (claim_c8_nullifier_double_spend ⟨"scope", ["0xab"]⟩ "0xaB").2.1 (by decide)⟩

end ZkToolkit
